import Mathlib

/-!
Shallow embedding of the reconciliation/diff/discovery core of the
family-office workflow (src/openbanking-fetcher.ts and the
SmartCryptoFetcher part of src/types.ts), together with theorems
settling the specification claims.  Monetary amounts and quantities are
modelled as rationals; JavaScript truthiness of optional numeric and
string fields is modelled explicitly.
-/

namespace FamilyOffice

/-- Canonical position record (interface Position in types.ts); `isin` and
`lastUpdated` are optional in the source. -/
structure Position where
  symbol : String
  name : String
  shares : ℚ
  currentPrice : ℚ
  marketValue : ℚ
  costBasis : ℚ
  unrealizedGainLoss : ℚ
  account : String
  sector : String
  currency : String
  isin : Option String
  lastUpdated : Option String
deriving DecidableEq

/-- The four change variants of interface PositionChange in types.ts. -/
inductive ChangeType where
  | new
  | closed
  | value_change
  | share_change
deriving DecidableEq

/-- interface PositionChange in types.ts: all numeric fields optional. -/
structure PositionChange where
  type : ChangeType
  symbol : String
  oldValue : Option ℚ := none
  newValue : Option ℚ := none
  oldShares : Option ℚ := none
  newShares : Option ℚ := none
  percentChange : Option ℚ := none
deriving DecidableEq

/-- interface PortfolioPositions in types.ts (crypto positions are stored in
the same converted shape as banking positions). -/
structure PortfolioPositions where
  equities : List Position
  funds : List Position
  bonds : List Position
  cash : List Position
  private_equity : List Position
  private_debt : List Position
  real_estate : List Position
  crowdfunding : List Position
  crypto : List Position
deriving DecidableEq

/-- JavaScript truthiness of an optional number: undefined, null and 0 are
falsy, every other number is truthy. -/
def qTruthy : Option ℚ → Bool
  | none => false
  | some x => x != 0

/-- JavaScript truthiness of an optional string: undefined, null and the
empty string are falsy. -/
def strTruthy : Option String → Bool
  | none => false
  | some s => s != ""

/-- OpenBankingFetcher.isSignificantChange: opened and closed changes are
always significant; otherwise the percent branch fires when a truthy
percentChange meets the percent threshold, and the value branch is reached
only when both oldValue and newValue are truthy. -/
def isSignificantChange (percentThreshold valueThreshold : ℚ)
    (change : PositionChange) : Bool :=
  if change.type = ChangeType.new ∨ change.type = ChangeType.closed then
    true
  else if qTruthy change.percentChange &&
      decide (percentThreshold ≤ |change.percentChange.getD 0|) then
    true
  else if qTruthy change.oldValue && qTruthy change.newValue then
    decide (valueThreshold ≤ |change.newValue.getD 0 - change.oldValue.getD 0|)
  else
    false

/-- Lowercasing as used by name.toLowerCase() in the source, modelled
character by character so it evaluates in the kernel. -/
def toLowerStr (s : String) : String := String.mk (s.data.map Char.toLower)

/-- Uppercasing as used by isin.toUpperCase() in the source. -/
def toUpperStr (s : String) : String := String.mk (s.data.map Char.toUpper)

/-- JavaScript s.includes(term): term occurs as a contiguous substring. -/
def containsSub (s term : String) : Bool := decide (term.data <:+: s.data)

/-- JavaScript s.startsWith(p). -/
def startsWithStr (s p : String) : Bool := p.data.isPrefixOf s.data

/-- Raw account record from the banking aggregation API; the fields read by
transformToInternalFormat.  Optional string fields model absent or empty
values. -/
structure Account where
  id : Int
  iban : Option String
  number : Option String
  webid : Option String
  original_name : String
  id_type : Option String
  type : Option String
  balance : ℚ
deriving DecidableEq

/-- The stringification of account.id_type or account.type inside the
template literal, with JavaScript or-fallback and undefined printing. -/
def accountTypeStr (a : Account) : String :=
  if strTruthy a.id_type then a.id_type.getD ""
  else
    match a.type with
    | some s => s
    | none => "undefined"

/-- Account deduplication key, priority order from
transformToInternalFormat: IBAN when truthy, else account number, else
webid, else original name joined with the account type. -/
def accountKey (a : Account) : String :=
  if strTruthy a.iban then a.iban.getD ""
  else if strTruthy a.number then a.number.getD ""
  else if strTruthy a.webid then a.webid.getD ""
  else a.original_name ++ "-" ++ accountTypeStr a

/-- First-match-wins account deduplication: an account whose key was
already seen is dropped, otherwise kept and its key recorded. -/
def dedupAccountsAux (seen : List String) : List Account → List Account
  | [] => []
  | a :: rest =>
    if accountKey a ∈ seen then dedupAccountsAux seen rest
    else a :: dedupAccountsAux (accountKey a :: seen) rest

/-- The uniqueAccounts list built by transformToInternalFormat. -/
def uniqueAccounts (accountsData : List Account) : List Account :=
  dedupAccountsAux [] accountsData

/-- The uniqueAccountIds set: ids of the accounts kept by deduplication. -/
def uniqueAccountIds (accountsData : List Account) : List Int :=
  (uniqueAccounts accountsData).map Account.id

/-- Raw instrument row (interface PowensInvestment in types.ts). -/
structure PowensInvestment where
  code_type : String
  code : String
  stock_symbol : Option String
  label : String
  quantity : ℚ
  unitvalue : ℚ
  valuation : ℚ
  unitprice : ℚ
  diff : ℚ
  id_account : Int
  vdate : String
deriving DecidableEq

/-- inv.stock_symbol with or-fallback to inv.code (empty string is falsy). -/
def invSymbol (inv : PowensInvestment) : String :=
  if strTruthy inv.stock_symbol then inv.stock_symbol.getD "" else inv.code

/-- Conversion of one raw instrument row to a Position, as built inside
the allInvestments loop of transformToInternalFormat. -/
def toPosition (inv : PowensInvestment) : Position :=
  { symbol := invSymbol inv
    name := inv.label
    shares := inv.quantity
    currentPrice := inv.unitvalue
    marketValue := inv.valuation
    costBasis := inv.quantity * inv.unitprice
    unrealizedGainLoss := inv.diff
    account := toString inv.id_account
    sector := "Unknown"
    currency := "EUR"
    isin := some inv.code
    lastUpdated := some inv.vdate }

/-- The filter applied to raw instrument rows: owning account survived
deduplication, code type is ISIN, code is not the liquidity placeholder,
and the valuation is strictly positive. -/
def investmentOk (ids : List Int) (inv : PowensInvestment) : Bool :=
  ids.contains inv.id_account &&
    (inv.code_type == "ISIN") &&
    (inv.code != "XX-liquidity") &&
    decide (0 < inv.valuation)

/-- The allInvestments list of transformToInternalFormat. -/
def allInvestments (accountsData : List Account)
    (invs : List PowensInvestment) : List Position :=
  (invs.filter (investmentOk (uniqueAccountIds accountsData))).map toPosition

/-- Exact-duplicate removal keyed by the (symbol, shares, marketValue,
currentPrice) signature, first occurrence kept. -/
def dedupExactAux (seen : List (String × ℚ × ℚ × ℚ)) :
    List Position → List Position
  | [] => []
  | p :: rest =>
    let sig := (p.symbol, p.shares, p.marketValue, p.currentPrice)
    if sig ∈ seen then dedupExactAux seen rest
    else p :: dedupExactAux (sig :: seen) rest

/-- The uniqueInvestments list of transformToInternalFormat. -/
def dedupExact (l : List Position) : List Position := dedupExactAux [] l

/-- Merge of two positions with the same symbol inside the consolidation
loop: shares, market values and cost bases are summed, the unit price is
recomputed from the sums, remaining fields come from the existing entry
except the comma-joined account. -/
def mergePos (existing inv : Position) : Position :=
  let totalShares := existing.shares + inv.shares
  let totalMarketValue := existing.marketValue + inv.marketValue
  let totalCostBasis := existing.costBasis + inv.costBasis
  { existing with
    shares := totalShares
    marketValue := totalMarketValue
    costBasis := totalCostBasis
    currentPrice := if 0 < totalShares then totalMarketValue / totalShares else 0
    unrealizedGainLoss := totalMarketValue - totalCostBasis
    account := existing.account ++ "," ++ inv.account }

/-- One step of the consolidation loop over the consolidatedPositions
record, modelled as an insertion-ordered association list. -/
def consolidateStep (m : List (String × Position)) (inv : Position) :
    List (String × Position) :=
  if m.any (fun e => decide (e.1 = inv.symbol)) then
    m.map (fun e => if e.1 = inv.symbol then (e.1, mergePos e.2 inv) else e)
  else m ++ [(inv.symbol, inv)]

/-- The consolidatedPositions record keyed by symbol. -/
def consolidate (rows : List Position) : List (String × Position) :=
  rows.foldl consolidateStep []

/-- The categorization pattern sets loaded from configuration. -/
structure CategorizationPatterns where
  real_estate : List String
  funds : List String
  private_equity : List String
  private_debt : List String
  crowdfunding : List String
deriving DecidableEq

/-- patterns.some(term => nameLower.includes(term)). -/
def matchesAny (pats : List String) (nameLower : String) : Bool :=
  pats.any (fun term => containsSub nameLower term)

/-- Empty category partition. -/
def emptyPositions : PortfolioPositions :=
  { equities := [], funds := [], bonds := [], cash := [], private_equity := []
    private_debt := [], real_estate := [], crowdfunding := [], crypto := [] }

/-- One step of the categorization loop: first matching category wins,
with an ISIN prefix check before the equities default. -/
def categorizeStep (patterns : CategorizationPatterns)
    (cats : PortfolioPositions) (inv : Position) : PortfolioPositions :=
  let nameLower := toLowerStr inv.name
  let isin := toUpperStr (inv.isin.getD "")
  if matchesAny patterns.real_estate nameLower then
    { cats with real_estate := cats.real_estate ++ [inv] }
  else if matchesAny patterns.funds nameLower then
    { cats with funds := cats.funds ++ [inv] }
  else if matchesAny patterns.private_equity nameLower then
    { cats with private_equity := cats.private_equity ++ [inv] }
  else if matchesAny patterns.private_debt nameLower then
    { cats with private_debt := cats.private_debt ++ [inv] }
  else if matchesAny patterns.crowdfunding nameLower then
    { cats with crowdfunding := cats.crowdfunding ++ [inv] }
  else if startsWithStr isin "FR0000" then
    { cats with equities := cats.equities ++ [inv] }
  else
    { cats with equities := cats.equities ++ [inv] }

/-- The categorization loop of transformToInternalFormat. -/
def categorize (patterns : CategorizationPatterns) (l : List Position) :
    PortfolioPositions :=
  l.foldl (categorizeStep patterns) emptyPositions

/-- Portfolio document persisted between fetch cycles. -/
structure PortfolioData where
  lastUpdated : String
  totalNetWorth : ℚ
  accounts : List Account
  positions : PortfolioPositions
deriving DecidableEq

/-- All positions of a snapshot partition, every category joined. -/
def snapshotPositions (pp : PortfolioPositions) : List Position :=
  pp.equities ++ pp.funds ++ pp.bonds ++ pp.cash ++ pp.private_equity ++
    pp.private_debt ++ pp.real_estate ++ pp.crowdfunding ++ pp.crypto

/-- OpenBankingFetcher.transformToInternalFormat: deduplicate accounts,
filter and convert instrument rows, drop exact duplicates, consolidate by
symbol, categorize, and total the deduplicated account balances.  The
run timestamp is a parameter. -/
def transformToInternalFormat (patterns : CategorizationPatterns)
    (timestamp : String) (accountsData : List Account)
    (invs : List PowensInvestment) : PortfolioData :=
  let uniq := uniqueAccounts accountsData
  let uniqueInvestments := dedupExact (allInvestments accountsData invs)
  let consolidated := consolidate uniqueInvestments
  { lastUpdated := timestamp
    totalNetWorth := (uniq.map Account.balance).sum
    accounts := uniq
    positions := categorize patterns (consolidated.map Prod.snd) }

/-- Key under which a position is entered into the symbol map of
detectChanges: pos.symbol with or-fallback to pos.isin, empty when both
are falsy. -/
def symbolKey (p : Position) : String :=
  if p.symbol ≠ "" then p.symbol else p.isin.getD ""

/-- The seven categories iterated by detectChanges (bonds and cash are
not compared). -/
def diffCategories (pp : PortfolioPositions) : List Position :=
  pp.equities ++ pp.funds ++ pp.private_equity ++ pp.private_debt ++
    pp.real_estate ++ pp.crowdfunding ++ pp.crypto

/-- Assignment map[k] = v on a JavaScript object modelled as an
insertion-ordered association list: an existing key keeps its place and
gets the new value, a fresh key is appended. -/
def upsert (m : List (String × Position)) (k : String) (v : Position) :
    List (String × Position) :=
  if m.any (fun e => decide (e.1 = k)) then
    m.map (fun e => if e.1 = k then (k, v) else e)
  else m ++ [(k, v)]

/-- One step of the flattening loop: a position with an empty key is
skipped, any other is assigned into the map under its key. -/
def flattenStep (m : List (String × Position)) (pos : Position) :
    List (String × Position) :=
  let s := symbolKey pos
  if s = "" then m else upsert m s pos

/-- The symbol-keyed position map detectChanges builds from a snapshot;
positions with an empty key are skipped. -/
def flatten (pd : PortfolioData) : List (String × Position) :=
  (diffCategories pd.positions).foldl flattenStep []

/-- Key lookup in a symbol map. -/
def hasKey (m : List (String × Position)) (k : String) : Bool :=
  m.any (fun e => decide (e.1 = k))

/-- Value lookup in a symbol map. -/
def getPos (m : List (String × Position)) (k : String) : Option Position :=
  (m.find? (fun e => decide (e.1 = k))).map Prod.snd

/-- The value_change record built by detectChanges, percent delta
included. -/
def valueChangeFor (s : String) (oldValue newValue : ℚ) : PositionChange :=
  { type := ChangeType.value_change
    symbol := s
    oldValue := some oldValue
    newValue := some newValue
    percentChange := some ((newValue - oldValue) / oldValue * 100) }

/-- The share_change record built by detectChanges. -/
def shareChangeFor (s : String) (oldShares newShares oldValue newValue : ℚ) :
    PositionChange :=
  { type := ChangeType.share_change
    symbol := s
    oldValue := some oldValue
    newValue := some newValue
    oldShares := some oldShares
    newShares := some newShares }

/-- The body of the changed-positions loop for one symbol of the old map:
a value_change is pushed only when the value differs, the old value is
positive and the change passes the significance filter; a share_change is
pushed whenever the share counts differ. -/
def changesForSymbol (percentThreshold valueThreshold : ℚ)
    (newPositions : List (String × Position)) (e : String × Position) :
    List PositionChange :=
  match getPos newPositions e.1 with
  | none => []
  | some newPos =>
    let oldValue := e.2.marketValue
    let newValue := newPos.marketValue
    let oldShares := e.2.shares
    let newShares := newPos.shares
    (if oldValue ≠ newValue ∧ 0 < oldValue then
        (if isSignificantChange percentThreshold valueThreshold
            (valueChangeFor e.1 oldValue newValue) then
          [valueChangeFor e.1 oldValue newValue]
        else [])
      else []) ++
    (if oldShares ≠ newShares then
        [shareChangeFor e.1 oldShares newShares oldValue newValue]
      else [])

/-- The first loop of detectChanges: one opened change per symbol of the
new map that is absent from the old map. -/
def openedChanges (oldPositions newPositions : List (String × Position)) :
    List PositionChange :=
  (newPositions.filter (fun e => !hasKey oldPositions e.1)).map
    (fun e =>
      { type := ChangeType.new
        symbol := e.1
        newValue := some e.2.marketValue
        newShares := some e.2.shares })

/-- The second loop of detectChanges: one closed change per symbol of the
old map that is absent from the new map. -/
def closedChanges (oldPositions newPositions : List (String × Position)) :
    List PositionChange :=
  (oldPositions.filter (fun e => !hasKey newPositions e.1)).map
    (fun e =>
      { type := ChangeType.closed
        symbol := e.1
        oldValue := some e.2.marketValue
        oldShares := some e.2.shares })

/-- The third loop of detectChanges: value and share changes for every
symbol present in both maps. -/
def changedChanges (percentThreshold valueThreshold : ℚ)
    (oldPositions newPositions : List (String × Position)) :
    List PositionChange :=
  (oldPositions.filter (fun e => hasKey newPositions e.1)).flatMap
    (changesForSymbol percentThreshold valueThreshold newPositions)

/-- OpenBankingFetcher.detectChanges: new positions, closed positions,
then per-symbol value and share changes, in the iteration order of the
symbol maps.  The significance thresholds read from the environment are
parameters. -/
def detectChanges (percentThreshold valueThreshold : ℚ)
    (oldData newData : PortfolioData) : List PositionChange :=
  let oldPositions := flatten oldData
  let newPositions := flatten newData
  openedChanges oldPositions newPositions ++
    closedChanges oldPositions newPositions ++
    changedChanges percentThreshold valueThreshold oldPositions newPositions

/-- Audit ledger entry (interface LedgerEntry in types.ts); the optional
per-change fields are modelled as options. -/
structure LedgerEntry where
  id : String
  timestamp : String
  duration : ℚ
  phase : String
  status : String
  errors : List String
  summaryPositionsAnalyzed : Option ℚ
  summaryRecommendationsGenerated : Option ℚ
  summaryTotalPortfolioValue : Option ℚ
  summaryChangeFromLastRun : Option ℚ
  summaryNewPositions : Option ℚ
  summaryClosedPositions : Option ℚ
  summarySignificantMovements : Option ℚ
  notes : String
  symbol : Option String
  change_type : Option String
  value : Option ℚ
  shares : Option ℚ
deriving DecidableEq

/-- Persisted ledger document: an ordered list of entries plus a schema
object. -/
structure Ledger where
  entries : List LedgerEntry
  schema : List (String × String)
deriving DecidableEq

/-- The ledger document used when the ledger file does not exist yet. -/
def emptyLedger : Ledger := { entries := [], schema := [] }

/-- The load-append-save core of OpenBankingFetcher.logToLedger: the
existing document (none models a missing file) gains the new entry at the
end of its entry list.  Entry construction from the call parameters and
timestamps happens in the caller-visible newEntry argument. -/
def logToLedger (existing : Option Ledger) (newEntry : LedgerEntry) : Ledger :=
  let ledger := existing.getD emptyLedger
  { ledger with entries := ledger.entries ++ [newEntry] }

/-- One ERC-20 transfer event returned by the explorer API; the contract
address may be missing. -/
structure TokenTx where
  contractAddress : Option String
  timeStamp : String
deriving DecidableEq

/-- interface DiscoveredToken of the SmartCryptoFetcher. -/
structure DiscoveredToken where
  address : String
  firstSeen : String
  lastSeen : String
  transactionCount : Nat
deriving DecidableEq

/-- interface TokenMetadata of the SmartCryptoFetcher. -/
structure TokenMetadata where
  address : String
  symbol : String
  name : String
  decimals : Nat
  chain : String
  coingeckoId : Option String
  type : Option String
  discoveredAt : String
  verified : Bool
deriving DecidableEq

/-- interface CachedPrice of the SmartCryptoFetcher; the ISO timestamp is
modelled as milliseconds since the epoch. -/
structure CachedPrice where
  price : ℚ
  timestamp : Int
  source : String
deriving DecidableEq

/-- The discovery section of the crypto configuration. -/
structure DiscoveryConfig where
  enabled : Bool
  scanDepth : Nat
  minValueUsd : ℚ
  maxTransactionsToScan : Nat
  cacheExpiryHours : ℚ
deriving DecidableEq

/-- The crypto configuration state the SmartCryptoFetcher mutates:
discovery settings, the token registry (tokenDatabase) keyed by
chain:address, and the price cache. -/
structure CryptoConfig where
  discovery : DiscoveryConfig
  tokenDatabase : List (String × TokenMetadata)
  priceCache : List (String × CachedPrice)
deriving DecidableEq

/-- One step of the discovery fold over transfer events: a falsy contract
address is skipped, a known lowercased address bumps its transfer count
and last-seen timestamp, a fresh one is inserted with count one. -/
def discoverStep (m : List (String × DiscoveredToken)) (tx : TokenTx) :
    List (String × DiscoveredToken) :=
  match tx.contractAddress with
  | none => m
  | some a0 =>
    let a := toLowerStr a0
    if a = "" then m
    else if m.any (fun e => decide (e.1 = a)) then
      m.map (fun e =>
        if e.1 = a then
          (e.1, { e.2 with
            transactionCount := e.2.transactionCount + 1
            lastSeen := tx.timeStamp })
        else e)
    else m ++ [(a, { address := a, firstSeen := tx.timeStamp,
                     lastSeen := tx.timeStamp, transactionCount := 1 })]

/-- SmartCryptoFetcher.discoverTokens: empty when discovery is disabled,
the chain has no explorer API, or the explorer call fails or reports no
transactions (response none); otherwise the values of the token map built
from the transfer events. -/
def discoverTokens (cfg : CryptoConfig) (hasExplorerApi : Bool)
    (response : Option (List TokenTx)) : List DiscoveredToken :=
  if !cfg.discovery.enabled then []
  else if !hasExplorerApi then []
  else
    match response with
    | none => []
    | some txs => (txs.foldl discoverStep []).map Prod.snd

/-- The price cache key: coingeckoId with or-fallback to the lowercased
symbol. -/
def priceCacheKey (symbol : String) (coingeckoId : Option String) : String :=
  if strTruthy coingeckoId then coingeckoId.getD "" else toLowerStr symbol

/-- Lookup in the price cache object. -/
def lookupCache (cache : List (String × CachedPrice)) (k : String) :
    Option CachedPrice :=
  (cache.find? (fun e => decide (e.1 = k))).map Prod.snd

/-- Assignment this.config.priceCache[key] = entry. -/
def upsertCache (cache : List (String × CachedPrice)) (k : String)
    (v : CachedPrice) : List (String × CachedPrice) :=
  if cache.any (fun e => decide (e.1 = k)) then
    cache.map (fun e => if e.1 = k then (k, v) else e)
  else cache ++ [(k, v)]

/-- SmartCryptoFetcher.getTokenPrice: a cached price younger than the
expiry window is returned as is; otherwise a fresh fetch is attempted
(ok p models an HTTP success with price p, already zero-defaulted by the
or-fallback on the response; error models a thrown request), a successful
fetch is stored under the key with the current time and source coingecko,
and a failed fetch yields price zero with the cache untouched. -/
def getTokenPrice (cache : List (String × CachedPrice))
    (cacheExpiryHours : ℚ) (now : Int) (symbol : String)
    (coingeckoId : Option String) (fetchResult : Except Unit ℚ) :
    ℚ × List (String × CachedPrice) :=
  let cacheKey := priceCacheKey symbol coingeckoId
  let fresh : ℚ × List (String × CachedPrice) :=
    match fetchResult with
    | Except.ok p =>
      (p, upsertCache cache cacheKey
            { price := p, timestamp := now, source := "coingecko" })
    | Except.error _ => (0, cache)
  match lookupCache cache cacheKey with
  | some cached =>
    let cacheAge : ℚ := ((now - cached.timestamp : Int) : ℚ)
    let maxAge : ℚ := cacheExpiryHours * 60 * 60 * 1000
    if cacheAge < maxAge then (cached.price, cache) else fresh
  | none => fresh

/-! ### Helper lemmas about the consolidation loop -/

theorem consolidate_same_symbol (s : String) (acc : Position)
    (l : List Position) (hl : ∀ q ∈ l, q.symbol = s) :
    List.foldl consolidateStep [(s, acc)] l =
      [(s, List.foldl mergePos acc l)] := by
  induction l generalizing acc with
  | nil => rfl
  | cons q rest ih =>
    have hq : q.symbol = s := hl q (by simp)
    have hstep : consolidateStep [(s, acc)] q = [(s, mergePos acc q)] := by
      simp [consolidateStep, hq]
    rw [List.foldl_cons, List.foldl_cons, hstep,
      ih (mergePos acc q) (fun p hp => hl p (by simp [hp]))]

theorem foldl_merge_shares (acc : Position) (l : List Position) :
    (List.foldl mergePos acc l).shares =
      acc.shares + (l.map Position.shares).sum := by
  induction l generalizing acc with
  | nil => simp
  | cons q rest ih =>
    rw [List.foldl_cons, ih (mergePos acc q)]
    simp [mergePos]
    ring

theorem foldl_merge_marketValue (acc : Position) (l : List Position) :
    (List.foldl mergePos acc l).marketValue =
      acc.marketValue + (l.map Position.marketValue).sum := by
  induction l generalizing acc with
  | nil => simp
  | cons q rest ih =>
    rw [List.foldl_cons, ih (mergePos acc q)]
    simp [mergePos]
    ring

theorem foldl_merge_costBasis (acc : Position) (l : List Position) :
    (List.foldl mergePos acc l).costBasis =
      acc.costBasis + (l.map Position.costBasis).sum := by
  induction l generalizing acc with
  | nil => simp
  | cons q rest ih =>
    rw [List.foldl_cons, ih (mergePos acc q)]
    simp [mergePos]
    ring

theorem mergePos_price (a b : Position) :
    (mergePos a b).currentPrice =
      if 0 < (mergePos a b).shares then
        (mergePos a b).marketValue / (mergePos a b).shares
      else 0 := rfl

theorem foldl_merge_price (acc : Position) (l : List Position)
    (hl : l ≠ []) :
    (List.foldl mergePos acc l).currentPrice =
      if 0 < (List.foldl mergePos acc l).shares then
        (List.foldl mergePos acc l).marketValue /
          (List.foldl mergePos acc l).shares
      else 0 := by
  induction l generalizing acc with
  | nil => exact absurd rfl hl
  | cons q rest ih =>
    rw [List.foldl_cons]
    rcases rest with _ | ⟨r, rs⟩
    · exact mergePos_price acc q
    · exact ih (mergePos acc q) (by simp)

/-! ### Helper lemmas about the symbol maps of detectChanges -/

theorem hasKey_iff_mem (m : List (String × Position)) (k : String) :
    hasKey m k = true ↔ k ∈ m.map Prod.fst := by
  unfold hasKey
  rw [List.any_eq_true]
  constructor
  · rintro ⟨e, he, hk⟩
    simp at hk
    exact List.mem_map.mpr ⟨e, he, hk⟩
  · intro h
    obtain ⟨e, he, hk⟩ := List.mem_map.mp h
    exact ⟨e, he, by simp [hk]⟩

theorem upsert_keys (m : List (String × Position)) (k : String)
    (v : Position) :
    (upsert m k v).map Prod.fst =
      if hasKey m k then m.map Prod.fst else m.map Prod.fst ++ [k] := by
  unfold upsert hasKey
  split
  · rw [List.map_map]
    apply List.map_congr_left
    intro e he
    by_cases hek : e.1 = k <;> simp [hek]
  · simp

theorem foldl_flattenStep_nodup (l : List Position)
    (m : List (String × Position)) (hm : (m.map Prod.fst).Nodup) :
    ((l.foldl flattenStep m).map Prod.fst).Nodup := by
  induction l generalizing m with
  | nil => exact hm
  | cons p rest ih =>
    rw [List.foldl_cons]
    apply ih
    unfold flattenStep
    by_cases hs : symbolKey p = ""
    · simpa [hs]
    · rw [if_neg hs, upsert_keys]
      split
      · exact hm
      · next h =>
        have hk : symbolKey p ∉ m.map Prod.fst := by
          intro hmem
          exact h ((hasKey_iff_mem m (symbolKey p)).mpr hmem)
        simp [List.nodup_append, hm, hk]

theorem flatten_keys_nodup (pd : PortfolioData) :
    ((flatten pd).map Prod.fst).Nodup :=
  foldl_flattenStep_nodup _ [] (by simp)

theorem getPos_some_mem {m : List (String × Position)} {k : String}
    {p : Position} (h : getPos m k = some p) : (k, p) ∈ m := by
  unfold getPos at h
  cases hf : m.find? (fun e => decide (e.1 = k)) with
  | none => rw [hf] at h; simp at h
  | some e =>
    rw [hf] at h
    have he := List.mem_of_find?_eq_some hf
    have hk := List.find?_some hf
    simp at h hk
    obtain ⟨k1, p1⟩ := e
    simp at h hk
    rw [← hk, ← h]
    exact he

theorem hasKey_of_getPos {m : List (String × Position)} {k : String}
    {p : Position} (h : getPos m k = some p) : hasKey m k = true := by
  have hm := getPos_some_mem h
  exact (hasKey_iff_mem m k).mpr (by
    exact List.mem_map.mpr ⟨(k, p), hm, rfl⟩)

theorem mem_key_unique {m : List (String × Position)}
    (hm : (m.map Prod.fst).Nodup) {k : String} {p q : Position}
    (hp : (k, p) ∈ m) (hq : (k, q) ∈ m) : p = q := by
  have h := List.inj_on_of_nodup_map hm hp hq rfl
  simpa using congrArg Prod.snd h

theorem countP_key (m : List (String × Position))
    (hm : (m.map Prod.fst).Nodup) (s : String) :
    m.countP (fun e => decide (e.1 = s)) =
      if s ∈ m.map Prod.fst then 1 else 0 := by
  induction m with
  | nil => simp
  | cons e rest ih =>
    simp only [List.map_cons, List.nodup_cons] at hm
    obtain ⟨hnot, hrest⟩ := hm
    rw [List.countP_cons, ih hrest]
    by_cases he : e.1 = s
    · subst he
      simp [hnot]
    · have hs : (s ∈ e.1 :: List.map Prod.fst rest) ↔
          s ∈ List.map Prod.fst rest := by
        simp [List.mem_cons, Ne.symm he]
      have hdec : decide (e.1 = s) = false := by simp [he]
      simp only [hdec, if_false, Bool.false_eq_true, add_zero]
      exact if_congr hs.symm rfl rfl

theorem changesForSymbol_mem {pt vt : ℚ}
    {newM : List (String × Position)} {e : String × Position}
    {c : PositionChange} (hc : c ∈ changesForSymbol pt vt newM e) :
    ∃ newPos, getPos newM e.1 = some newPos ∧
      ((c = valueChangeFor e.1 e.2.marketValue newPos.marketValue ∧
          e.2.marketValue ≠ newPos.marketValue ∧ 0 < e.2.marketValue ∧
          isSignificantChange pt vt c = true) ∨
        (c = shareChangeFor e.1 e.2.shares newPos.shares
            e.2.marketValue newPos.marketValue ∧
          e.2.shares ≠ newPos.shares)) := by
  unfold changesForSymbol at hc
  cases hg : getPos newM e.1 with
  | none => rw [hg] at hc; simp at hc
  | some newPos =>
    rw [hg] at hc
    refine ⟨newPos, rfl, ?_⟩
    rcases List.mem_append.mp hc with h | h
    · split at h
      · next hcond =>
        split at h
        · next hsig =>
          simp at h
          subst h
          exact Or.inl ⟨rfl, hcond.1, hcond.2, hsig⟩
        · simp at h
      · simp at h
    · split at h
      · next hcond =>
        simp at h
        subst h
        exact Or.inr ⟨rfl, hcond⟩
      · simp at h

theorem changesForSymbol_type_symbol {pt vt : ℚ}
    {newM : List (String × Position)} {e : String × Position}
    {c : PositionChange} (hc : c ∈ changesForSymbol pt vt newM e) :
    (c.type = ChangeType.value_change ∨ c.type = ChangeType.share_change) ∧
      c.symbol = e.1 := by
  obtain ⟨newPos, -, h | h⟩ := changesForSymbol_mem hc
  · rw [h.1]; exact ⟨Or.inl rfl, rfl⟩
  · rw [h.1]; exact ⟨Or.inr rfl, rfl⟩

theorem shareChange_mem_changesFor {pt vt : ℚ}
    {newM : List (String × Position)} {e : String × Position}
    {newPos : Position} (hg : getPos newM e.1 = some newPos)
    (hs : e.2.shares ≠ newPos.shares) :
    shareChangeFor e.1 e.2.shares newPos.shares e.2.marketValue
        newPos.marketValue ∈ changesForSymbol pt vt newM e := by
  unfold changesForSymbol
  rw [hg]
  apply List.mem_append.mpr
  right
  simp [hs]

theorem valueChange_mem_changesFor {pt vt : ℚ}
    {newM : List (String × Position)} {e : String × Position}
    {newPos : Position} (hg : getPos newM e.1 = some newPos)
    (hv : e.2.marketValue ≠ newPos.marketValue)
    (hpos : 0 < e.2.marketValue)
    (hsig : isSignificantChange pt vt
        (valueChangeFor e.1 e.2.marketValue newPos.marketValue) = true) :
    valueChangeFor e.1 e.2.marketValue newPos.marketValue ∈
      changesForSymbol pt vt newM e := by
  unfold changesForSymbol
  rw [hg]
  apply List.mem_append.mpr
  left
  rw [if_pos ⟨hv, hpos⟩, if_pos hsig]
  simp

theorem mem_detectChanges_of_changesFor {pt vt : ℚ}
    {oldData newData : PortfolioData} {e : String × Position}
    {c : PositionChange} (he : e ∈ flatten oldData)
    (hk : hasKey (flatten newData) e.1 = true)
    (hc : c ∈ changesForSymbol pt vt (flatten newData) e) :
    c ∈ detectChanges pt vt oldData newData := by
  unfold detectChanges
  apply List.mem_append.mpr
  right
  unfold changedChanges
  exact List.mem_flatMap.mpr ⟨e, List.mem_filter.mpr ⟨he, by simp [hk]⟩, hc⟩

theorem openedChanges_countP (oldM newM : List (String × Position))
    (hnew : (newM.map Prod.fst).Nodup) (s : String) :
    (openedChanges oldM newM).countP
        (fun c => decide (c.type = ChangeType.new ∧ c.symbol = s)) =
      if hasKey newM s = true ∧ hasKey oldM s = false then 1 else 0 := by
  have hstep : (openedChanges oldM newM).countP
      (fun c => decide (c.type = ChangeType.new ∧ c.symbol = s)) =
      newM.countP (fun e => decide (e.1 = s) && !hasKey oldM e.1) := by
    unfold openedChanges
    rw [List.countP_map, List.countP_filter]
    apply List.countP_congr
    intro e he
    simp [Function.comp]
  rw [hstep]
  cases h1 : hasKey oldM s with
  | true =>
    rw [if_neg (by simp [h1])]
    apply List.countP_eq_zero.mpr
    intro e he
    simp only [Bool.and_eq_true, decide_eq_true_eq, Bool.not_eq_true',
      not_and]
    intro hes
    rw [hes, h1]
    simp
  | false =>
    have hcongr : newM.countP (fun e => decide (e.1 = s) && !hasKey oldM e.1)
        = newM.countP (fun e => decide (e.1 = s)) := by
      apply List.countP_congr
      intro e he
      constructor
      · intro h
        exact (Bool.and_eq_true _ _).mp h |>.1
      · intro h
        have hes : e.1 = s := by simpa using h
        rw [h, hes, h1]
        rfl
    rw [hcongr, countP_key newM hnew s]
    apply if_congr _ rfl rfl
    rw [← hasKey_iff_mem]
    simp

theorem closedChanges_countP (oldM newM : List (String × Position))
    (hold : (oldM.map Prod.fst).Nodup) (s : String) :
    (closedChanges oldM newM).countP
        (fun c => decide (c.type = ChangeType.closed ∧ c.symbol = s)) =
      if hasKey oldM s = true ∧ hasKey newM s = false then 1 else 0 := by
  have hstep : (closedChanges oldM newM).countP
      (fun c => decide (c.type = ChangeType.closed ∧ c.symbol = s)) =
      oldM.countP (fun e => decide (e.1 = s) && !hasKey newM e.1) := by
    unfold closedChanges
    rw [List.countP_map, List.countP_filter]
    apply List.countP_congr
    intro e he
    simp [Function.comp]
  rw [hstep]
  cases h1 : hasKey newM s with
  | true =>
    rw [if_neg (by simp [h1])]
    apply List.countP_eq_zero.mpr
    intro e he
    simp only [Bool.and_eq_true, decide_eq_true_eq, Bool.not_eq_true',
      not_and]
    intro hes
    rw [hes, h1]
    simp
  | false =>
    have hcongr : oldM.countP (fun e => decide (e.1 = s) && !hasKey newM e.1)
        = oldM.countP (fun e => decide (e.1 = s)) := by
      apply List.countP_congr
      intro e he
      constructor
      · intro h
        exact (Bool.and_eq_true _ _).mp h |>.1
      · intro h
        have hes : e.1 = s := by simpa using h
        rw [h, hes, h1]
        rfl
    rw [hcongr, countP_key oldM hold s]
    apply if_congr _ rfl rfl
    rw [← hasKey_iff_mem]
    simp

theorem openedChanges_countP_closed (oldM newM : List (String × Position))
    (s : String) :
    (openedChanges oldM newM).countP
        (fun c => decide (c.type = ChangeType.closed ∧ c.symbol = s)) = 0 := by
  apply List.countP_eq_zero.mpr
  intro c hc
  obtain ⟨e, -, hce⟩ := List.mem_map.mp hc
  simp [← hce]

theorem closedChanges_countP_new (oldM newM : List (String × Position))
    (s : String) :
    (closedChanges oldM newM).countP
        (fun c => decide (c.type = ChangeType.new ∧ c.symbol = s)) = 0 := by
  apply List.countP_eq_zero.mpr
  intro c hc
  obtain ⟨e, -, hce⟩ := List.mem_map.mp hc
  simp [← hce]

theorem changedChanges_countP_new (pt vt : ℚ)
    (oldM newM : List (String × Position)) (s : String) :
    (changedChanges pt vt oldM newM).countP
        (fun c => decide (c.type = ChangeType.new ∧ c.symbol = s)) = 0 := by
  apply List.countP_eq_zero.mpr
  intro c hc
  obtain ⟨e, -, hce⟩ := List.mem_flatMap.mp hc
  obtain ⟨htype, -⟩ := changesForSymbol_type_symbol hce
  simp only [decide_eq_true_eq, not_and]
  intro ht
  rw [ht] at htype
  rcases htype with h | h <;> exact ChangeType.noConfusion h

theorem changedChanges_countP_closed (pt vt : ℚ)
    (oldM newM : List (String × Position)) (s : String) :
    (changedChanges pt vt oldM newM).countP
        (fun c => decide (c.type = ChangeType.closed ∧ c.symbol = s)) = 0 := by
  apply List.countP_eq_zero.mpr
  intro c hc
  obtain ⟨e, -, hce⟩ := List.mem_flatMap.mp hc
  obtain ⟨htype, -⟩ := changesForSymbol_type_symbol hce
  simp only [decide_eq_true_eq, not_and]
  intro ht
  rw [ht] at htype
  rcases htype with h | h <;> exact ChangeType.noConfusion h

/-- Claim C5: for every pair of snapshots, the diff holds exactly one
opened change per symbol of the new map absent from the old map, exactly
one closed change per symbol of the old map absent from the new map, and
no symbol receives both. -/
theorem c5_diff_completeness (pt vt : ℚ) (oldData newData : PortfolioData)
    (s : String) :
    ((detectChanges pt vt oldData newData).countP
        (fun c => decide (c.type = ChangeType.new ∧ c.symbol = s)) =
      if hasKey (flatten newData) s = true ∧ hasKey (flatten oldData) s = false
      then 1 else 0) ∧
    ((detectChanges pt vt oldData newData).countP
        (fun c => decide (c.type = ChangeType.closed ∧ c.symbol = s)) =
      if hasKey (flatten oldData) s = true ∧ hasKey (flatten newData) s = false
      then 1 else 0) ∧
    ¬ (0 < (detectChanges pt vt oldData newData).countP
          (fun c => decide (c.type = ChangeType.new ∧ c.symbol = s)) ∧
        0 < (detectChanges pt vt oldData newData).countP
          (fun c => decide (c.type = ChangeType.closed ∧ c.symbol = s))) := by
  have hdc : detectChanges pt vt oldData newData =
      openedChanges (flatten oldData) (flatten newData) ++
        closedChanges (flatten oldData) (flatten newData) ++
        changedChanges pt vt (flatten oldData) (flatten newData) := rfl
  have hnew :=
    openedChanges_countP (flatten oldData) (flatten newData)
      (flatten_keys_nodup newData) s
  have hclosed :=
    closedChanges_countP (flatten oldData) (flatten newData)
      (flatten_keys_nodup oldData) s
  have h1 : (detectChanges pt vt oldData newData).countP
      (fun c => decide (c.type = ChangeType.new ∧ c.symbol = s)) =
      if hasKey (flatten newData) s = true ∧ hasKey (flatten oldData) s = false
      then 1 else 0 := by
    rw [hdc, List.countP_append, List.countP_append, hnew,
      closedChanges_countP_new, changedChanges_countP_new]
    simp
  have h2 : (detectChanges pt vt oldData newData).countP
      (fun c => decide (c.type = ChangeType.closed ∧ c.symbol = s)) =
      if hasKey (flatten oldData) s = true ∧ hasKey (flatten newData) s = false
      then 1 else 0 := by
    rw [hdc, List.countP_append, List.countP_append, hclosed,
      openedChanges_countP_closed, changedChanges_countP_closed]
    simp
  refine ⟨h1, h2, ?_⟩
  rintro ⟨ha, hb⟩
  rw [h1] at ha
  rw [h2] at hb
  by_cases hc1 : hasKey (flatten newData) s = true ∧
      hasKey (flatten oldData) s = false
  · rw [if_pos hc1] at ha
    have : ¬ (hasKey (flatten oldData) s = true ∧
        hasKey (flatten newData) s = false) := by
      rintro ⟨hx, -⟩
      rw [hc1.2] at hx
      exact Bool.noConfusion hx
    rw [if_neg this] at hb
    exact lt_irrefl 0 hb
  · rw [if_neg hc1] at ha
    exact lt_irrefl 0 ha

/-- Row fixtures for the C2 counterexample: two surviving rows sharing
one symbol whose quantities sum to a negative number (the row filter only
requires a positive valuation, not a positive quantity). -/
def c2Row1 : Position :=
  ⟨"VTI", "Vanguard Total", -5, 100, 100, 400, 100, "11", "Unknown",
    "EUR", some "US0000000001", none⟩

def c2Row2 : Position :=
  ⟨"VTI", "Vanguard Total", -6, 100, 120, 240, 60, "12", "Unknown",
    "EUR", some "US0000000001", none⟩

/-- Counterexample to claim C2 as stated: merging two surviving rows with
quantities -5 and -6 and market values 100 and 120 hits the
totalShares > 0 guard of the source, so the consolidated unit price is 0, not the
claimed ratio of total market value over total quantity, which is -20. -/
theorem c2_counterexample :
    ∃ p : Position,
      consolidate [c2Row1, c2Row2] = [("VTI", p)] ∧
      p.currentPrice = 0 ∧
      (c2Row1.marketValue + c2Row2.marketValue) /
          (c2Row1.shares + c2Row2.shares) = -20 ∧
      p.currentPrice ≠
        (c2Row1.marketValue + c2Row2.marketValue) /
          (c2Row1.shares + c2Row2.shares) := by
  refine ⟨mergePos c2Row1 c2Row2, rfl, ?_, ?_, ?_⟩
  · norm_num [mergePos, c2Row1, c2Row2]
  · norm_num [c2Row1, c2Row2]
  · norm_num [mergePos, c2Row1, c2Row2]

/-- Claim C2 (amended): consolidating two or more surviving raw rows that
share one symbol yields a single map entry whose quantity, market value
and cost basis are the sums over the rows; the unit price is recomputed
as total market value divided by total quantity whenever the total
quantity is positive, and is set to 0 otherwise — never an average or a
copy of the unit prices of the input rows. -/
theorem c2_amended_merge_value_identity (r : Position)
    (rest : List Position) (hrest : rest ≠ [])
    (hsym : ∀ q ∈ rest, q.symbol = r.symbol) :
    ∃ p : Position,
      consolidate (r :: rest) = [(r.symbol, p)] ∧
      p.shares = r.shares + (rest.map Position.shares).sum ∧
      p.marketValue = r.marketValue + (rest.map Position.marketValue).sum ∧
      p.costBasis = r.costBasis + (rest.map Position.costBasis).sum ∧
      p.currentPrice =
        (if 0 < r.shares + (rest.map Position.shares).sum then
          (r.marketValue + (rest.map Position.marketValue).sum) /
            (r.shares + (rest.map Position.shares).sum)
        else 0) := by
  refine ⟨List.foldl mergePos r rest, ?_, ?_, ?_, ?_, ?_⟩
  · have h0 : consolidateStep [] r = [(r.symbol, r)] := by
      simp [consolidateStep]
    calc consolidate (r :: rest)
        = List.foldl consolidateStep [(r.symbol, r)] rest := by
          rw [consolidate, List.foldl_cons, h0]
      _ = [(r.symbol, List.foldl mergePos r rest)] :=
          consolidate_same_symbol r.symbol r rest hsym
  · exact foldl_merge_shares r rest
  · exact foldl_merge_marketValue r rest
  · exact foldl_merge_costBasis r rest
  · rw [foldl_merge_price r rest hrest, foldl_merge_shares,
      foldl_merge_marketValue]

/-- Witness for the amended C2 at the concrete scenario of two VTI rows
of 5 and 3 shares worth 500 and 300: the consolidated entry holds 8
shares worth 800 at recomputed unit price 100 (the positive-quantity
branch of the guard). -/
theorem c2_amended_merge_value_identity_witness :
    ∃ p : Position,
      consolidate
        [⟨"VTI", "Vanguard Total", 5, 100, 500, 400, 100, "11", "Unknown",
          "EUR", some "US0000000001", none⟩,
         ⟨"VTI", "Vanguard Total", 3, 100, 300, 240, 60, "12", "Unknown",
          "EUR", some "US0000000001", none⟩] = [("VTI", p)] ∧
      p.shares = 5 + ([(3 : ℚ)]).sum ∧
      p.marketValue = 500 + ([(300 : ℚ)]).sum ∧
      p.costBasis = 400 + ([(240 : ℚ)]).sum ∧
      p.currentPrice =
        (if 0 < (5:ℚ) + ([(3 : ℚ)]).sum then
          (500 + ([(300 : ℚ)]).sum) / (5 + ([(3 : ℚ)]).sum)
        else 0) :=
  c2_amended_merge_value_identity
    ⟨"VTI", "Vanguard Total", 5, 100, 500, 400, 100, "11", "Unknown",
      "EUR", some "US0000000001", none⟩
    [⟨"VTI", "Vanguard Total", 3, 100, 300, 240, 60, "12", "Unknown",
      "EUR", some "US0000000001", none⟩]
    (by simp) (by decide)

/-- Claim C9: a ledger write appends exactly one entry at the end, leaves
every previously stored entry unchanged, and a missing ledger file starts
from the empty entry list. -/
theorem c9_ledger_append_only (L : Ledger) (e : LedgerEntry) :
    (logToLedger (some L) e).entries = L.entries ++ [e] ∧
    (logToLedger (some L) e).entries.take L.entries.length = L.entries ∧
    (logToLedger none e).entries = [e] := by
  refine ⟨rfl, ?_, rfl⟩
  simp [logToLedger]

/-- Claim C8: a cached price is returned exactly when its age is strictly
below the expiry window; on a miss a successful fresh fetch is returned
and stored under the key with the current time and source, and a failed
fresh fetch yields price zero instead of an error. -/
theorem c8_price_cache_contract (cache : List (String × CachedPrice))
    (hours : ℚ) (now : Int) (symbol : String) (cid : Option String)
    (fetchResult : Except Unit ℚ) :
    (∀ cp, lookupCache cache (priceCacheKey symbol cid) = some cp →
        ((now - cp.timestamp : Int) : ℚ) < hours * 60 * 60 * 1000 →
        getTokenPrice cache hours now symbol cid fetchResult =
          (cp.price, cache)) ∧
    ((∀ cp, lookupCache cache (priceCacheKey symbol cid) = some cp →
        hours * 60 * 60 * 1000 ≤ ((now - cp.timestamp : Int) : ℚ)) →
      (∀ p, fetchResult = Except.ok p →
          getTokenPrice cache hours now symbol cid fetchResult =
            (p, upsertCache cache (priceCacheKey symbol cid)
                  { price := p, timestamp := now, source := "coingecko" })) ∧
      (fetchResult = Except.error () →
          getTokenPrice cache hours now symbol cid fetchResult =
            (0, cache))) := by
  constructor
  · intro cp hcp hage
    push_cast at hage
    simp [getTokenPrice, hcp]
    intro h
    linarith
  · intro hmiss
    constructor
    · intro p hp
      subst hp
      cases hcp : lookupCache cache (priceCacheKey symbol cid) with
      | none => simp [getTokenPrice, hcp]
      | some cp =>
        have h := hmiss cp hcp
        push_cast at h
        simp [getTokenPrice, hcp]
        intro hlt
        linarith
    · intro hp
      subst hp
      cases hcp : lookupCache cache (priceCacheKey symbol cid) with
      | none => simp [getTokenPrice, hcp]
      | some cp =>
        have h := hmiss cp hcp
        push_cast at h
        simp [getTokenPrice, hcp]
        intro hlt
        linarith

/-- Witness for C8: a one-entry cache with a fresh BTC price answers from
the cache and ignores the fetch result. -/
theorem c8_price_cache_contract_witness :
    getTokenPrice [("btc", ⟨50, 0, "coingecko"⟩)] 24 1000 "BTC" none
        (Except.ok 7) =
      (50, [("btc", ⟨50, 0, "coingecko"⟩)]) :=
  (c8_price_cache_contract [("btc", ⟨50, 0, "coingecko"⟩)] 24 1000 "BTC"
      none (Except.ok 7)).1
    ⟨50, 0, "coingecko"⟩ (by decide) (by norm_num)

/-! ### Concrete snapshot fixtures for the diff claims -/

/-- A minimal position fixture with the given symbol, share count and
market value. -/
def mkSample (sym : String) (sh mv : ℚ) : Position :=
  { symbol := sym, name := sym, shares := sh, currentPrice := 0,
    marketValue := mv, costBasis := 0, unrealizedGainLoss := 0,
    account := "a", sector := "Unknown", currency := "EUR",
    isin := none, lastUpdated := none }

/-- A snapshot fixture holding the given equity positions. -/
def mkSnapshot (l : List Position) : PortfolioData :=
  { lastUpdated := "", totalNetWorth := 0, accounts := [],
    positions := { emptyPositions with equities := l } }

/-- Counterexample to claim C1 as stated: between two snapshots that only
differ in the share count of AAA (market value unchanged at 1000), the
differencer emits the share change, but the significance filter
classifies it as not significant under the default thresholds. -/
theorem c1_counterexample :
    detectChanges 5 1000 (mkSnapshot [mkSample "AAA" 10 1000])
        (mkSnapshot [mkSample "AAA" 20 1000]) =
      [shareChangeFor "AAA" 10 20 1000 1000] ∧
    isSignificantChange 5 1000 (shareChangeFor "AAA" 10 20 1000 1000) =
      false := by
  constructor
  · decide
  · norm_num [isSignificantChange, shareChangeFor, qTruthy]
    decide

/-- Claim C1 (amended): for a symbol present in both maps with differing
share counts the differencer always emits a share change, but the
significance filter does not classify every share change as significant:
it applies the value thresholds, so the change is significant exactly
when both market values are nonzero and their absolute difference meets
the currency threshold (the percent branch never fires because a share
change carries no percent delta). -/
theorem c1_amended_share_change (pt vt : ℚ)
    (oldData newData : PortfolioData) (s : String)
    (oldPos newPos : Position)
    (ho : getPos (flatten oldData) s = some oldPos)
    (hn : getPos (flatten newData) s = some newPos)
    (hsh : oldPos.shares ≠ newPos.shares) :
    shareChangeFor s oldPos.shares newPos.shares oldPos.marketValue
        newPos.marketValue ∈ detectChanges pt vt oldData newData ∧
    isSignificantChange pt vt
        (shareChangeFor s oldPos.shares newPos.shares oldPos.marketValue
          newPos.marketValue) =
      decide (oldPos.marketValue ≠ 0 ∧ newPos.marketValue ≠ 0 ∧
        vt ≤ |newPos.marketValue - oldPos.marketValue|) := by
  constructor
  · exact mem_detectChanges_of_changesFor (getPos_some_mem ho)
      (hasKey_of_getPos hn) (shareChange_mem_changesFor hn hsh)
  · by_cases h1 : oldPos.marketValue = 0
    · simp [isSignificantChange, shareChangeFor, qTruthy, h1]
    · by_cases h2 : newPos.marketValue = 0
      · simp [isSignificantChange, shareChangeFor, qTruthy, h1, h2]
      · simp [isSignificantChange, shareChangeFor, qTruthy, h1, h2]

/-- Witness for the amended C1: a concrete share change from 10 to 4
shares is emitted by the differencer. -/
theorem c1_amended_share_change_witness :
    shareChangeFor "BBB" 10 4 1000 3000 ∈
      detectChanges 5 1000 (mkSnapshot [mkSample "BBB" 10 1000])
        (mkSnapshot [mkSample "BBB" 4 3000]) :=
  (c1_amended_share_change 5 1000 (mkSnapshot [mkSample "BBB" 10 1000])
      (mkSnapshot [mkSample "BBB" 4 3000]) "BBB"
      (mkSample "BBB" 10 1000) (mkSample "BBB" 4 3000)
      (by decide) (by decide) (by decide)).1

/-- Counterexample to claim C3 as stated: for old value 5000 and new
value 0 under percent threshold 200 and currency threshold 1000, the
absolute delta passes the currency threshold but the change is classified
not significant, because the JavaScript truthiness test on the zero new
value skips the absolute-delta branch. -/
theorem c3_counterexample :
    isSignificantChange 200 1000 (valueChangeFor "AAA" 5000 0) = false ∧
    ((200:ℚ) ≤ |((0:ℚ) - 5000) / 5000 * 100| ∨
      (1000:ℚ) ≤ |(0:ℚ) - 5000|) := by
  constructor
  · norm_num [isSignificantChange, valueChangeFor, qTruthy]
    decide
  · right
    norm_num

/-- Claim C3 (amended): a value change emitted by the differencer (old
value positive, values differing) is significant exactly when the percent
delta meets the percent threshold, or the new value is nonzero and the
absolute delta meets the currency threshold; and every significant such
change is indeed emitted. -/
theorem c3_amended_value_significance (pt vt : ℚ)
    (oldData newData : PortfolioData) (s : String)
    (oldPos newPos : Position)
    (ho : getPos (flatten oldData) s = some oldPos)
    (hn : getPos (flatten newData) s = some newPos)
    (hv : oldPos.marketValue ≠ newPos.marketValue)
    (hpos : 0 < oldPos.marketValue) :
    (isSignificantChange pt vt
        (valueChangeFor s oldPos.marketValue newPos.marketValue) = true ↔
      (pt ≤ |(newPos.marketValue - oldPos.marketValue) /
          oldPos.marketValue * 100| ∨
        (newPos.marketValue ≠ 0 ∧
          vt ≤ |newPos.marketValue - oldPos.marketValue|))) ∧
    (isSignificantChange pt vt
        (valueChangeFor s oldPos.marketValue newPos.marketValue) = true →
      valueChangeFor s oldPos.marketValue newPos.marketValue ∈
        detectChanges pt vt oldData newData) := by
  have hod : oldPos.marketValue ≠ 0 := ne_of_gt hpos
  have hpc : (newPos.marketValue - oldPos.marketValue) /
      oldPos.marketValue * 100 ≠ 0 :=
    mul_ne_zero (div_ne_zero (sub_ne_zero.mpr (Ne.symm hv)) hod)
      (by norm_num)
  constructor
  · by_cases hpt : pt ≤ |(newPos.marketValue - oldPos.marketValue) /
        oldPos.marketValue * 100|
    · simp [isSignificantChange, valueChangeFor, qTruthy, hpc, hpt]
    · by_cases h2 : newPos.marketValue = 0
      · simp [isSignificantChange, valueChangeFor, qTruthy, hpc, hpt, h2,
          hod]
      · simp [isSignificantChange, valueChangeFor, qTruthy, hpc, hpt, h2,
          hod]
  · intro hsig
    exact mem_detectChanges_of_changesFor (getPos_some_mem ho)
      (hasKey_of_getPos hn) (valueChange_mem_changesFor hn hv hpos hsig)

/-- Witness for the amended C3 at the AAPL scenario (1000 to 1200, a 20
percent move over a 5 percent threshold): the value change is emitted. -/
theorem c3_amended_value_significance_witness :
    valueChangeFor "AAPL" 1000 1200 ∈
      detectChanges 5 1000 (mkSnapshot [mkSample "AAPL" 10 1000])
        (mkSnapshot [mkSample "AAPL" 10 1200]) :=
  (c3_amended_value_significance 5 1000
      (mkSnapshot [mkSample "AAPL" 10 1000])
      (mkSnapshot [mkSample "AAPL" 10 1200]) "AAPL"
      (mkSample "AAPL" 10 1000) (mkSample "AAPL" 10 1200)
      (by decide) (by decide) (by decide) (by decide)).2
    (by norm_num [isSignificantChange, valueChangeFor, qTruthy, mkSample])

/-- Counterexample to claim C4 as stated: a symbol present in both
snapshots with old value 0 and new value 5000 produces no change at all,
although the claimed absolute-delta test would have passed the 1000
threshold. -/
theorem c4_counterexample :
    detectChanges 5 1000 (mkSnapshot [mkSample "AAA" 5 0])
        (mkSnapshot [mkSample "AAA" 5 5000]) = [] ∧
    (1000:ℚ) ≤ |(5000:ℚ) - 0| := by
  constructor
  · decide
  · norm_num

/-- Claim C4 (amended): the differencer emits a value change only when
the old market value is strictly positive; a symbol present in both
snapshots whose old value is zero yields no value change whatsoever, so
neither the percent test nor the absolute-delta test is ever applied. -/
theorem c4_amended_zero_old_value (pt vt : ℚ)
    (oldData newData : PortfolioData) (s : String) (oldPos : Position)
    (ho : getPos (flatten oldData) s = some oldPos)
    (hz : oldPos.marketValue = 0) :
    (detectChanges pt vt oldData newData).countP
      (fun c => decide (c.type = ChangeType.value_change ∧ c.symbol = s)) =
      0 := by
  apply List.countP_eq_zero.mpr
  intro c hc
  simp only [decide_eq_true_eq]
  rintro ⟨ht, hsym⟩
  rcases List.mem_append.mp hc with hab | hC
  · rcases List.mem_append.mp hab with hA | hB
    · obtain ⟨e, -, hce⟩ := List.mem_map.mp hA
      rw [← hce] at ht
      exact ChangeType.noConfusion ht
    · obtain ⟨e, -, hce⟩ := List.mem_map.mp hB
      rw [← hce] at ht
      exact ChangeType.noConfusion ht
  · obtain ⟨e, hef, hce⟩ := List.mem_flatMap.mp hC
    obtain ⟨newPos, hg, hcase | hcase⟩ := changesForSymbol_mem hce
    · obtain ⟨hcv, -, hposv, -⟩ := hcase
      have hes : e.1 = s := by
        rw [hcv] at hsym
        exact hsym
      have hmem : e ∈ flatten oldData := (List.mem_filter.mp hef).1
      have hmem2 : (s, e.2) ∈ flatten oldData := by
        rw [← hes]
        exact hmem
      have he2 : e.2 = oldPos :=
        mem_key_unique (flatten_keys_nodup oldData) hmem2
          (getPos_some_mem ho)
      rw [he2, hz] at hposv
      exact lt_irrefl 0 hposv
    · obtain ⟨hcs, -⟩ := hcase
      rw [hcs] at ht
      exact ChangeType.noConfusion ht

/-- Witness for the amended C4: the zero-old-value snapshot pair produces
no value change for AAA. -/
theorem c4_amended_zero_old_value_witness :
    (detectChanges 5 1000 (mkSnapshot [mkSample "AAA" 5 0])
        (mkSnapshot [mkSample "AAA" 5 5000])).countP
      (fun c => decide (c.type = ChangeType.value_change ∧
        c.symbol = "AAA")) = 0 :=
  c4_amended_zero_old_value 5 1000 (mkSnapshot [mkSample "AAA" 5 0])
    (mkSnapshot [mkSample "AAA" 5 5000]) "AAA" (mkSample "AAA" 5 0)
    (by decide) (by decide)

/-! ### Account deduplication lemmas and claim C6 -/

theorem dedupAccountsAux_subset {seen : List String} {l : List Account}
    {a : Account} (h : a ∈ dedupAccountsAux seen l) : a ∈ l := by
  induction l generalizing seen with
  | nil => simp [dedupAccountsAux] at h
  | cons b rest ih =>
    unfold dedupAccountsAux at h
    split at h
    · exact List.mem_cons_of_mem b (ih h)
    · rcases List.mem_cons.mp h with h1 | h1
      · exact h1 ▸ List.mem_cons_self b rest
      · exact List.mem_cons_of_mem b (ih h1)

theorem dedupAccountsAux_nodup (l : List Account) (seen : List String) :
    ((dedupAccountsAux seen l).map accountKey).Nodup ∧
      ∀ a ∈ dedupAccountsAux seen l, accountKey a ∉ seen := by
  induction l generalizing seen with
  | nil => simp [dedupAccountsAux]
  | cons b rest ih =>
    unfold dedupAccountsAux
    split
    · exact ih seen
    · next hb =>
      obtain ⟨ihn, ihs⟩ := ih (accountKey b :: seen)
      refine ⟨?_, ?_⟩
      · simp only [List.map_cons, List.nodup_cons]
        refine ⟨?_, ihn⟩
        intro hmem
        obtain ⟨a, ha, hka⟩ := List.mem_map.mp hmem
        exact ihs a ha (by simp [hka])
      · intro a ha
        rcases List.mem_cons.mp ha with h1 | h1
        · rw [h1]; exact hb
        · intro hs
          exact ihs a h1 (List.mem_cons_of_mem _ hs)

theorem dedupAccountsAux_find (l : List Account) (seen : List String)
    (k : String) (hk : k ∉ seen) :
    (dedupAccountsAux seen l).find? (fun a => decide (accountKey a = k)) =
      l.find? (fun a => decide (accountKey a = k)) := by
  induction l generalizing seen with
  | nil => rfl
  | cons b rest ih =>
    unfold dedupAccountsAux
    split
    · next hb =>
      have hbk : ¬ (decide (accountKey b = k) = true) := by
        simp only [decide_eq_true_eq]
        intro he
        exact hk (he ▸ hb)
      rw [List.find?_cons_of_neg rest hbk]
      exact ih seen hk
    · next hb =>
      by_cases hbk : accountKey b = k
      · rw [List.find?_cons_of_pos _ (by simp [hbk]),
          List.find?_cons_of_pos _ (by simp [hbk])]
      · rw [List.find?_cons_of_neg _ (by simp [hbk]),
          List.find?_cons_of_neg _ (by simp [hbk])]
        refine ih (accountKey b :: seen) ?_
        intro hs
        rcases List.mem_cons.mp hs with h1 | h1
        · exact hbk h1.symm
        · exact hk h1

/-- Claim C6: account deduplication is first-match-wins on the priority
key (no two kept accounts share a key, and the kept representative of any
key is the first input account carrying it), and every instrument row
owned by an account dropped as a duplicate fails the row filter, so it is
excluded from the canonical snapshot. -/
theorem c6_account_dedup (l : List Account)
    (hids : (l.map Account.id).Nodup) :
    ((uniqueAccounts l).map accountKey).Nodup ∧
    (∀ k : String,
      (uniqueAccounts l).find? (fun a => decide (accountKey a = k)) =
        l.find? (fun a => decide (accountKey a = k))) ∧
    (∀ a ∈ l, a ∉ uniqueAccounts l →
      ∀ inv : PowensInvestment, inv.id_account = a.id →
        investmentOk (uniqueAccountIds l) inv = false) := by
  refine ⟨(dedupAccountsAux_nodup l []).1, ?_, ?_⟩
  · intro k
    exact dedupAccountsAux_find l [] k (by simp)
  · intro a ha hdrop inv hinv
    have hid : a.id ∉ uniqueAccountIds l := by
      intro hmem
      obtain ⟨b, hb, hba⟩ := List.mem_map.mp hmem
      have hbl : b ∈ l := dedupAccountsAux_subset hb
      have : b = a := List.inj_on_of_nodup_map hids hbl ha hba
      exact hdrop (this ▸ hb)
    have hcont : (uniqueAccountIds l).contains inv.id_account = false := by
      rw [hinv]
      simpa using hid
    simp only [investmentOk, hcont, Bool.false_and]

/-- Witness account fixtures for C6: two views of one account sharing an
IBAN, the second carrying a distinct provider id. -/
def c6Acc1 : Account :=
  { id := 1, iban := some "FR7611111", number := none, webid := none,
    original_name := "Main", id_type := some "checking", type := none,
    balance := 100 }

def c6Acc2 : Account :=
  { id := 2, iban := some "FR7611111", number := some "42", webid := none,
    original_name := "Main view 2", id_type := some "checking",
    type := none, balance := 100 }

def c6Inv : PowensInvestment :=
  { code_type := "ISIN", code := "FR0000120404", stock_symbol := some "AC",
    label := "Accor", quantity := 10, unitvalue := 30, valuation := 300,
    unitprice := 25, diff := 50, id_account := 2, vdate := "2024-01-01" }

/-- Witness for C6: the instrument row owned by the dropped duplicate
account view fails the row filter. -/
theorem c6_account_dedup_witness :
    investmentOk (uniqueAccountIds [c6Acc1, c6Acc2]) c6Inv = false :=
  (c6_account_dedup [c6Acc1, c6Acc2] (by decide)).2.2 c6Acc2 (by decide)
    (by decide) c6Inv rfl

/-! ### Token discovery lemmas and claim C7 -/

theorem discoverStep_keys (m : List (String × DiscoveredToken))
    (tx : TokenTx) (addr : String) :
    (addr ∈ (discoverStep m tx).map Prod.fst) ↔
      (addr ∈ m.map Prod.fst ∨ ∃ s, tx.contractAddress = some s ∧
        toLowerStr s = addr ∧ addr ≠ "") := by
  cases htx : tx.contractAddress with
  | none => simp [discoverStep, htx]
  | some a0 =>
    simp only [discoverStep, htx]
    by_cases ha : toLowerStr a0 = ""
    · rw [if_pos ha]
      constructor
      · exact Or.inl
      · rintro (h | ⟨s, hs, hl, hne⟩)
        · exact h
        · injection hs with hs
          subst hs
          exact absurd (ha.symm.trans hl).symm hne
    · rw [if_neg ha]
      by_cases hmem : m.any (fun e => decide (e.1 = toLowerStr a0))
      · rw [if_pos hmem]
        have hkeys : (m.map (fun e =>
            if e.1 = toLowerStr a0 then
              (e.1, { e.2 with
                transactionCount := e.2.transactionCount + 1,
                lastSeen := tx.timeStamp })
            else e)).map Prod.fst = m.map Prod.fst := by
          rw [List.map_map]
          apply List.map_congr_left
          intro e he
          by_cases h : e.1 = toLowerStr a0 <;> simp [h]
        rw [hkeys]
        constructor
        · exact Or.inl
        · rintro (h | ⟨s, hs, hl, hne⟩)
          · exact h
          · injection hs with hs
            subst hs
            rw [← hl]
            obtain ⟨e, he, hek⟩ := List.any_eq_true.mp hmem
            exact List.mem_map.mpr ⟨e, he, by simpa using hek⟩
      · rw [if_neg hmem, List.map_append]
        simp only [List.mem_append]
        constructor
        · rintro (h | h)
          · exact Or.inl h
          · simp only [List.map_cons, List.map_nil,
              List.mem_singleton] at h
            right
            exact ⟨a0, rfl, h.symm, h ▸ ha⟩
        · rintro (h | ⟨s, hs, hl, hne⟩)
          · exact Or.inl h
          · injection hs with hs
            subst hs
            right
            simp [← hl]

theorem discover_foldl_keys (txs : List TokenTx)
    (m : List (String × DiscoveredToken)) (addr : String) :
    (addr ∈ (txs.foldl discoverStep m).map Prod.fst) ↔
      (addr ∈ m.map Prod.fst ∨ ∃ tx ∈ txs, ∃ s,
        tx.contractAddress = some s ∧ toLowerStr s = addr ∧ addr ≠ "") := by
  induction txs generalizing m with
  | nil => simp
  | cons tx rest ih =>
    rw [List.foldl_cons, ih (discoverStep m tx), discoverStep_keys]
    simp only [List.mem_cons]
    constructor
    · rintro ((h | h) | h)
      · exact Or.inl h
      · obtain ⟨s, hs⟩ := h
        exact Or.inr ⟨tx, Or.inl rfl, s, hs⟩
      · obtain ⟨tx1, htx1, hrest⟩ := h
        exact Or.inr ⟨tx1, Or.inr htx1, hrest⟩
    · rintro (h | ⟨tx1, htx1 | htx1, hrest⟩)
      · exact Or.inl (Or.inl h)
      · subst htx1
        exact Or.inl (Or.inr hrest)
      · exact Or.inr ⟨tx1, htx1, hrest⟩

theorem discoverStep_address {m : List (String × DiscoveredToken)}
    {tx : TokenTx} (h : ∀ e ∈ m, e.2.address = e.1) :
    ∀ e ∈ discoverStep m tx, e.2.address = e.1 := by
  intro e he
  cases htx : tx.contractAddress with
  | none =>
    simp only [discoverStep, htx] at he
    exact h e he
  | some a0 =>
    simp only [discoverStep, htx] at he
    by_cases ha : toLowerStr a0 = ""
    · rw [if_pos ha] at he
      exact h e he
    · rw [if_neg ha] at he
      split at he
      · obtain ⟨e0, he0, heq⟩ := List.mem_map.mp he
        by_cases h0 : e0.1 = toLowerStr a0
        · rw [if_pos h0] at heq
          rw [← heq]
          exact h e0 he0
        · rw [if_neg h0] at heq
          rw [← heq]
          exact h e0 he0
      · rcases List.mem_append.mp he with h1 | h1
        · exact h e h1
        · simp only [List.mem_singleton] at h1
          rw [h1]

theorem discover_foldl_address (txs : List TokenTx)
    (m : List (String × DiscoveredToken))
    (h : ∀ e ∈ m, e.2.address = e.1) :
    ∀ e ∈ txs.foldl discoverStep m, e.2.address = e.1 := by
  induction txs generalizing m with
  | nil => exact h
  | cons tx rest ih =>
    rw [List.foldl_cons]
    exact ih _ (discoverStep_address h)

/-- Claim C7 (amended): token discovery does not consult the Token
Registry at all — its result is invariant under the registry contents,
and an address is returned exactly when it appears (lowercased, nonempty)
on some scanned transfer event, regardless of registry membership. -/
theorem c7_amended_discovery (cfg : CryptoConfig)
    (db : List (String × TokenMetadata)) (hasApi : Bool)
    (resp : Option (List TokenTx)) (addr : String) :
    discoverTokens { cfg with tokenDatabase := db } hasApi resp =
      discoverTokens cfg hasApi resp ∧
    (addr ∈ (discoverTokens cfg hasApi resp).map DiscoveredToken.address ↔
      (cfg.discovery.enabled = true ∧ hasApi = true ∧
        ∃ txs, resp = some txs ∧ ∃ tx ∈ txs, ∃ s,
          tx.contractAddress = some s ∧ toLowerStr s = addr ∧
            addr ≠ "")) := by
  refine ⟨rfl, ?_⟩
  cases henb : cfg.discovery.enabled with
  | false => simp [discoverTokens, henb]
  | true =>
    cases hasApi with
    | false => simp [discoverTokens]
    | true =>
      cases resp with
      | none => simp [discoverTokens, henb]
      | some txs =>
        have hfold : discoverTokens cfg true (some txs) =
            (txs.foldl discoverStep []).map Prod.snd := by
          simp [discoverTokens, henb]
        rw [hfold]
        have haddr : ((txs.foldl discoverStep []).map Prod.snd).map
            DiscoveredToken.address =
            (txs.foldl discoverStep []).map Prod.fst := by
          rw [List.map_map]
          apply List.map_congr_left
          intro e he
          exact discover_foldl_address txs [] (by simp) e he
        rw [haddr, discover_foldl_keys]
        simp

/-- Registry fixture for the C7 counterexample: the contract 0xabc on
ethereum is already registered. -/
def c7Meta : TokenMetadata :=
  { address := "0xabc", symbol := "ABC", name := "Abc Token",
    decimals := 18, chain := "ethereum", coingeckoId := none,
    type := none, discoveredAt := "", verified := false }

def c7Cfg : CryptoConfig :=
  { discovery :=
      { enabled := true, scanDepth := 10, minValueUsd := 1,
        maxTransactionsToScan := 100, cacheExpiryHours := 24 },
    tokenDatabase := [("ethereum:0xabc", c7Meta)], priceCache := [] }

/-- Counterexample to claim C7 as stated: a transfer event for the
already registered contract 0xABC still yields a discovered token for
0xabc — discovery does not exclude registry members. -/
theorem c7_counterexample :
    (discoverTokens c7Cfg true
        (some [{ contractAddress := some "0xABC", timeStamp := "100" }])).map
      DiscoveredToken.address = ["0xabc"] ∧
    ("ethereum" ++ ":" ++ "0xabc") ∈ c7Cfg.tokenDatabase.map Prod.fst := by
  constructor
  · rfl
  · simp [c7Cfg]

/-! ### Pipeline membership lemmas and claim C10 -/

theorem dedupExactAux_subset {seen : List (String × ℚ × ℚ × ℚ)}
    {l : List Position} {p : Position} (h : p ∈ dedupExactAux seen l) :
    p ∈ l := by
  induction l generalizing seen with
  | nil => simp [dedupExactAux] at h
  | cons q rest ih =>
    simp only [dedupExactAux] at h
    split at h
    · exact List.mem_cons_of_mem q (ih h)
    · rcases List.mem_cons.mp h with h1 | h1
      · exact h1 ▸ List.mem_cons_self q rest
      · exact List.mem_cons_of_mem q (ih h1)

theorem dedupExact_subset {l : List Position} {p : Position}
    (h : p ∈ dedupExact l) : p ∈ l :=
  dedupExactAux_subset h

theorem consolidateStep_origin (m : List (String × Position))
    (r : Position) :
    ∀ e ∈ consolidateStep m r,
      (∃ e0 ∈ m, e.2.symbol = e0.2.symbol ∧ e.2.isin = e0.2.isin ∧
        e.2.name = e0.2.name) ∨
      (e.2.symbol = r.symbol ∧ e.2.isin = r.isin ∧ e.2.name = r.name) := by
  intro e he
  unfold consolidateStep at he
  split at he
  · obtain ⟨e0, he0, heq⟩ := List.mem_map.mp he
    by_cases h0 : e0.1 = r.symbol
    · rw [if_pos h0] at heq
      left
      exact ⟨e0, he0, by rw [← heq]; exact ⟨rfl, rfl, rfl⟩⟩
    · rw [if_neg h0] at heq
      left
      exact ⟨e0, he0, by rw [← heq]; exact ⟨rfl, rfl, rfl⟩⟩
  · rcases List.mem_append.mp he with h1 | h1
    · left
      exact ⟨e, h1, rfl, rfl, rfl⟩
    · right
      simp only [List.mem_singleton] at h1
      rw [h1]
      exact ⟨rfl, rfl, rfl⟩

theorem consolidate_foldl_origin (rows : List Position) :
    ∀ m, ∀ e ∈ rows.foldl consolidateStep m,
      (∃ e0 ∈ m, e.2.symbol = e0.2.symbol ∧ e.2.isin = e0.2.isin ∧
        e.2.name = e0.2.name) ∨
      (∃ r ∈ rows, e.2.symbol = r.symbol ∧ e.2.isin = r.isin ∧
        e.2.name = r.name) := by
  induction rows with
  | nil =>
    intro m e he
    left
    exact ⟨e, he, rfl, rfl, rfl⟩
  | cons r rest ih =>
    intro m e he
    rw [List.foldl_cons] at he
    rcases ih (consolidateStep m r) e he with ⟨e0, he0, h1, h2, h3⟩ |
      ⟨r1, hr1, h1, h2, h3⟩
    · rcases consolidateStep_origin m r e0 he0 with ⟨e1, he1, g1, g2, g3⟩ |
        ⟨g1, g2, g3⟩
      · left
        exact ⟨e1, he1, h1.trans g1, h2.trans g2, h3.trans g3⟩
      · right
        exact ⟨r, List.mem_cons_self r rest, h1.trans g1, h2.trans g2,
          h3.trans g3⟩
    · right
      exact ⟨r1, List.mem_cons_of_mem r hr1, h1, h2, h3⟩

theorem consolidate_values_origin (rows : List Position) :
    ∀ q ∈ (consolidate rows).map Prod.snd,
      ∃ r ∈ rows, q.symbol = r.symbol ∧ q.isin = r.isin ∧
        q.name = r.name := by
  intro q hq
  obtain ⟨e, he, heq⟩ := List.mem_map.mp hq
  rcases consolidate_foldl_origin rows [] e he with ⟨e0, he0, -⟩ |
    ⟨r, hr, h1, h2, h3⟩
  · simp at he0
  · exact ⟨r, hr, heq ▸ ⟨h1, h2, h3⟩⟩

theorem categorizeStep_mem (patterns : CategorizationPatterns)
    (acc : PortfolioPositions) (x p : Position)
    (hp : p ∈ snapshotPositions (categorizeStep patterns acc x)) :
    p ∈ snapshotPositions acc ∨ p = x := by
  unfold categorizeStep at hp
  by_cases h1 : matchesAny patterns.real_estate (toLowerStr x.name) = true
  · rw [if_pos h1] at hp
    simp only [snapshotPositions, List.mem_append, List.mem_singleton]
      at hp ⊢
    tauto
  · rw [if_neg h1] at hp
    by_cases h2 : matchesAny patterns.funds (toLowerStr x.name) = true
    · rw [if_pos h2] at hp
      simp only [snapshotPositions, List.mem_append, List.mem_singleton]
        at hp ⊢
      tauto
    · rw [if_neg h2] at hp
      by_cases h3 : matchesAny patterns.private_equity (toLowerStr x.name) = true
      · rw [if_pos h3] at hp
        simp only [snapshotPositions, List.mem_append, List.mem_singleton]
          at hp ⊢
        tauto
      · rw [if_neg h3] at hp
        by_cases h4 : matchesAny patterns.private_debt (toLowerStr x.name) = true
        · rw [if_pos h4] at hp
          simp only [snapshotPositions, List.mem_append, List.mem_singleton]
            at hp ⊢
          tauto
        · rw [if_neg h4] at hp
          by_cases h5 : matchesAny patterns.crowdfunding (toLowerStr x.name) = true
          · rw [if_pos h5] at hp
            simp only [snapshotPositions, List.mem_append, List.mem_singleton]
              at hp ⊢
            tauto
          · rw [if_neg h5] at hp
            by_cases h6 : startsWithStr (toUpperStr (x.isin.getD "")) "FR0000" = true
            · rw [if_pos h6] at hp
              simp only [snapshotPositions, List.mem_append, List.mem_singleton]
                at hp ⊢
              tauto
            · rw [if_neg h6] at hp
              simp only [snapshotPositions, List.mem_append, List.mem_singleton]
                at hp ⊢
              tauto

theorem categorize_foldl_mem (patterns : CategorizationPatterns)
    (l : List Position) :
    ∀ acc p, p ∈ snapshotPositions (l.foldl (categorizeStep patterns) acc) →
      p ∈ snapshotPositions acc ∨ p ∈ l := by
  induction l with
  | nil =>
    intro acc p hp
    exact Or.inl hp
  | cons x rest ih =>
    intro acc p hp
    rw [List.foldl_cons] at hp
    rcases ih (categorizeStep patterns acc x) p hp with h1 | h1
    · rcases categorizeStep_mem patterns acc x p h1 with h2 | h2
      · exact Or.inl h2
      · exact Or.inr (h2 ▸ List.mem_cons_self x rest)
    · exact Or.inr (List.mem_cons_of_mem x h1)

theorem mem_allInvestments {accountsData : List Account}
    {invs : List PowensInvestment} {p : Position} :
    p ∈ allInvestments accountsData invs ↔
      ∃ inv ∈ invs, investmentOk (uniqueAccountIds accountsData) inv =
        true ∧ p = toPosition inv := by
  unfold allInvestments
  constructor
  · intro h
    obtain ⟨inv, hinv, heq⟩ := List.mem_map.mp h
    obtain ⟨hmem, hok⟩ := List.mem_filter.mp hinv
    exact ⟨inv, hmem, hok, heq.symm⟩
  · rintro ⟨inv, hmem, hok, rfl⟩
    exact List.mem_map.mpr ⟨inv, List.mem_filter.mpr ⟨hmem, hok⟩, rfl⟩

/-- Claim C10: every position of a snapshot produced by the normalizer
originates from a raw instrument row whose code type is exactly ISIN,
whose code is not the liquidity placeholder, and whose market value is
strictly positive; zero-value and non-ISIN rows are excluded. -/
theorem c10_snapshot_row_filter (patterns : CategorizationPatterns)
    (timestamp : String) (accountsData : List Account)
    (invs : List PowensInvestment) (p : Position)
    (hp : p ∈ snapshotPositions
        (transformToInternalFormat patterns timestamp accountsData
          invs).positions) :
    ∃ inv ∈ invs, inv.code_type = "ISIN" ∧ inv.code ≠ "XX-liquidity" ∧
      0 < inv.valuation ∧ p.symbol = invSymbol inv ∧
      p.isin = some inv.code ∧ p.name = inv.label := by
  have hp1 : p ∈ snapshotPositions (categorize patterns
      ((consolidate (dedupExact (allInvestments accountsData invs))).map
        Prod.snd)) := hp
  rcases categorize_foldl_mem patterns _ emptyPositions p hp1 with h | h
  · simp [snapshotPositions, emptyPositions] at h
  · obtain ⟨r, hr, hsym, hisin, hname⟩ :=
      consolidate_values_origin _ p h
    have hr2 : r ∈ allInvestments accountsData invs := dedupExact_subset hr
    obtain ⟨inv, hmem, hok, hpr⟩ := mem_allInvestments.mp hr2
    simp only [investmentOk, Bool.and_eq_true, beq_iff_eq, bne_iff_ne,
      decide_eq_true_eq] at hok
    refine ⟨inv, hmem, hok.1.1.2, hok.1.2, hok.2, ?_, ?_, ?_⟩
    · rw [hsym, hpr]
      rfl
    · rw [hisin, hpr]
      rfl
    · rw [hname, hpr]
      rfl

/-- Fixtures for the C10 witness: one account owning one valid ISIN row. -/
def c10Patterns : CategorizationPatterns := ⟨[], [], [], [], []⟩

def c10Acc : Account :=
  { id := 1, iban := some "FR761", number := none, webid := none,
    original_name := "Main", id_type := some "checking", type := none,
    balance := 100 }

def c10Inv : PowensInvestment :=
  { code_type := "ISIN", code := "DE0001234567", stock_symbol := some "SAP",
    label := "Sap SE", quantity := 2, unitvalue := 5, valuation := 10,
    unitprice := 4, diff := 2, id_account := 1, vdate := "2024" }

/-- Witness for C10: the single surviving position of the fixture
snapshot originates from the fixture row. -/
theorem c10_snapshot_row_filter_witness :
    ∃ inv ∈ [c10Inv], inv.code_type = "ISIN" ∧ inv.code ≠ "XX-liquidity" ∧
      0 < inv.valuation ∧ (toPosition c10Inv).symbol = invSymbol inv ∧
      (toPosition c10Inv).isin = some inv.code ∧
      (toPosition c10Inv).name = inv.label :=
  c10_snapshot_row_filter c10Patterns "2024" [c10Acc] [c10Inv]
    (toPosition c10Inv)
    (by
      have h : snapshotPositions (transformToInternalFormat c10Patterns
          "2024" [c10Acc] [c10Inv]).positions = [toPosition c10Inv] := rfl
      rw [h]
      exact List.mem_singleton_self _)

end FamilyOffice
